import Mathlib

/-!
Verification of the measurement engine shared by `src/mq_benchmark.cpp` and
`src/gcd_benchmark.cpp`: the reservoir latency sampler (`LatencyRecorder`),
the percentile estimator (`computePercentiles`), the producer retry loop,
the consumer latency guard, and the exit-code skeleton of `main`.

The C++ is embedded shallowly: machine integers become `Nat` (with explicit
`% 2 ^ 64` where wrap-around matters), the mutex-guarded buffer becomes a
`List Nat` threaded through explicit state, and each random draw of
`uniform_int_distribution(0, index)` becomes an explicit argument; the
probabilistic law is stated by exact counting over the finite space of all
draw sequences, each call with index `i ≥ capacity` drawing from
`Fin (i + 1)` (the uniform distribution on the space is counting measure).
-/

/-- State of `LatencyRecorder` (`mq_benchmark.cpp` lines 70-107,
`gcd_benchmark.cpp` lines 58-89): the sample buffer `samplesNs`, the fixed
`capacity`, and the atomic counter `seen`.  The mutex and the rng are not
state here: the rng's successive outputs are passed as explicit draw
arguments. -/
structure LatencyRecorder where
  samplesNs : List Nat
  capacity : Nat
  seen : Nat
deriving DecidableEq, Repr

/-- `LatencyRecorder(cap)`: empty buffer, `seen = 0`. -/
def LatencyRecorder.init (cap : Nat) : LatencyRecorder :=
  { samplesNs := [], capacity := cap, seen := 0 }

/-- `LatencyRecorder::record` of `gcd_benchmark.cpp` (lines 70-88).
`r` is the value drawn by `uniform_int_distribution<uint64_t>(0, index)`
on the paths that draw; on the others it is unused.  The pre-increment
`seen.fetch_add(1)` happens before the `capacity == 0` early return, so
`seen` advances even then. -/
def recordGcd (st : LatencyRecorder) (valueNs r : Nat) : LatencyRecorder :=
  let index := st.seen
  let st1 := { st with seen := st.seen + 1 }
  if st1.capacity = 0 then st1
  else if index < st1.capacity then
    if st1.samplesNs.length < st1.capacity then
      { st1 with samplesNs := st1.samplesNs ++ [valueNs] }
    else st1
  else if r < st1.capacity then
    if r < st1.samplesNs.length then
      { st1 with samplesNs := st1.samplesNs.set r valueNs }
    else st1
  else st1

/-- `LatencyRecorder::record` of `mq_benchmark.cpp` (lines 82-106).  It
differs from the gcd version only in the `index < capacity` branch: when
the buffer is already full it additionally draws and overwrites position
`r` if `r < capacity`. -/
def recordMq (st : LatencyRecorder) (valueNs r : Nat) : LatencyRecorder :=
  let index := st.seen
  let st1 := { st with seen := st.seen + 1 }
  if st1.capacity = 0 then st1
  else if index < st1.capacity then
    if st1.samplesNs.length < st1.capacity then
      { st1 with samplesNs := st1.samplesNs ++ [valueNs] }
    else if r < st1.capacity then
      { st1 with samplesNs := st1.samplesNs.set r valueNs }
    else st1
  else if r < st1.capacity then
    if r < st1.samplesNs.length then
      { st1 with samplesNs := st1.samplesNs.set r valueNs }
    else st1
  else st1

/-- Sequential run of the gcd recorder from the initial state: call `n`
records value `vals n` with draw `draws n`. -/
def runRecGcd (cap : Nat) (vals draws : Nat → Nat) : Nat → LatencyRecorder
  | 0 => LatencyRecorder.init cap
  | n + 1 => recordGcd (runRecGcd cap vals draws n) (vals n) (draws n)

/-- Sequential run of the mqueue recorder from the initial state. -/
def runRecMq (cap : Nat) (vals draws : Nat → Nat) : Nat → LatencyRecorder
  | 0 => LatencyRecorder.init cap
  | n + 1 => recordMq (runRecMq cap vals draws n) (vals n) (draws n)

/-- Which call writes into buffer position `p` (`p < capacity`) during a
sequential run: call `j < capacity` appends its value at position `j`; a
call `j ≥ capacity` whose draw equals `p` overwrites position `p`. -/
def writesAt (cap : Nat) (draws : Nat → Nat) (j p : Nat) : Prop :=
  (j < cap ∧ p = j) ∨ (cap ≤ j ∧ draws j = p)

instance writesAt.instDecidable (cap : Nat) (draws : Nat → Nat) (j p : Nat) :
    Decidable (writesAt cap draws j p) := by
  unfold writesAt
  infer_instance

/-- The last call before call `N` that writes into buffer position `p`
(for `N ≥ 1`; position `p` itself is always a writer once `p < N`). -/
def lastWriter (cap : Nat) (draws : Nat → Nat) (p N : Nat) : Nat :=
  Nat.findGreatest (fun j => writesAt cap draws j p) (N - 1)

/-- Value `i` of a sequential run feeding `0, 1, 2, ...` survives into the
final buffer: it lands in the buffer at all (for `i < capacity` at
position `i`; for `i ≥ capacity` at position `draws i`, provided that
draw is below capacity), and no later call overwrites that position. -/
def survives (cap N : Nat) (draws : Nat → Nat) (i : Nat) : Prop :=
  i < N ∧ (if i < cap then i else draws i) < cap ∧
    ∀ j, i < j → j < N → cap ≤ j → draws j ≠ (if i < cap then i else draws i)

/-- Space of all draw sequences for `N` sequential `record` calls with
capacity `cap`: the call with index `cap + k` draws uniformly from
`[0, cap + k]`, i.e. from `Fin (cap + k + 1)`; calls with index below
`cap` do not draw. -/
abbrev DrawSpace (cap N : Nat) : Type :=
  ∀ k : Fin (N - cap), Fin (cap + (k : Nat) + 1)

/-- Reading a point of `DrawSpace` as the draw function of a run: the call
with index `j = cap + k` uses coordinate `k`. -/
def toDraws (cap N : Nat) (d : DrawSpace cap N) : Nat → Nat := fun j =>
  if h : cap ≤ j ∧ j < N then (d ⟨j - cap, by omega⟩ : Nat) else 0

/-- Sort ascending (`std::sort(dataNs.begin(), dataNs.end())`). -/
def sortAsc (l : List Nat) : List Nat :=
  List.insertionSort (· ≤ ·) l

/-- The lambda `at` inside `computePercentiles` (`mq_benchmark.cpp` lines
274-282, `gcd_benchmark.cpp` lines 94-102), over an already sorted list:
`pos = pct * (n - 1)`, truncate to `idx`, `idx2 = min(idx + 1, n - 1)`,
linear interpolation, then nanoseconds to microseconds.  `double`
arithmetic is modelled by `ℚ`. -/
def atQuantile (sorted : List Nat) (pct : ℚ) : ℚ :=
  if sorted.isEmpty then 0
  else
    let n := sorted.length
    let pos : ℚ := pct * ((n : ℚ) - 1)
    let idx : Nat := ⌊pos⌋₊
    let idx2 : Nat := min (idx + 1) (n - 1)
    let frac : ℚ := pos - (idx : ℚ)
    ((sorted.getD idx 0 : ℚ) * (1 - frac) + (sorted.getD idx2 0 : ℚ) * frac) / 1000

/-- `computePercentiles` (`mq_benchmark.cpp` lines 271-287,
`gcd_benchmark.cpp` lines 91-107): empty input yields the empty list;
otherwise sort ascending and emit the five `(quantile, microseconds)`
pairs in order. -/
def computePercentiles (dataNs : List Nat) : List (ℚ × ℚ) :=
  if dataNs.isEmpty then []
  else
    let sorted := sortAsc dataNs
    [(0.5 : ℚ), 0.90, 0.95, 0.99, 0.999].map (fun p => (p, atQuantile sorted p))

/-- The spec's wording of the interpolation: order statistics at `⌊p⌋` and
`⌈p⌉` weighted by the fractional part of `p`, then divided by 1000.  Stated
from the spec sentence, to be compared with `atQuantile` above. -/
def specQuantile (sorted : List Nat) (q : ℚ) : ℚ :=
  let n := sorted.length
  let p : ℚ := q * ((n : ℚ) - 1)
  let lo : Nat := ⌊p⌋₊
  let hi : Nat := ⌈p⌉₊
  let frac : ℚ := p - (lo : ℚ)
  ((sorted.getD lo 0 : ℚ) * (1 - frac) + (sorted.getD hi 0 : ℚ) * frac) / 1000

/-- `MsgHeader` (both files): per-producer sequence number and the send
timestamp, written at the front of the payload when it fits. -/
structure MsgHeader where
  sequence : Nat
  sendTimeNs : Nat
deriving DecidableEq, Repr

/-- The producer-side state of `producerThread` (`mq_benchmark.cpp` lines
193-233): the per-worker `seq` counter and the counters it touches. -/
structure ProducerState where
  seq : Nat
  sentMessages : Nat
  sentBytes : Nat
  sendEagain : Nat
  sendErrors : Nat
deriving DecidableEq, Repr

/-- Outcome of `mq_timedsend` as seen through `errno`. -/
inductive SendResult where
  | ok
  | eagain
  | etimedout
  | err
deriving DecidableEq, Repr

/-- One iteration of the producer loop body (`mq_benchmark.cpp` lines
202-232).  When the payload can carry a header (`messageSize ≥ 16 =
sizeof(MsgHeader)`), the iteration writes `{seq++, nowNs()}` into it and
then attempts the send; the result is classified by `errno`.  Returns the
new state, the header of the message this iteration attempted to send
(`none` when the payload is too small to carry one), and the backoff in
microseconds slept on failure. -/
def producerIter (messageSize : Nat) (st : ProducerState) (now : Nat)
    (res : SendResult) : ProducerState × Option MsgHeader × Nat :=
  let st1 := if 16 ≤ messageSize then { st with seq := st.seq + 1 } else st
  let header : Option MsgHeader :=
    if 16 ≤ messageSize then some { sequence := st.seq, sendTimeNs := now } else none
  match res with
  | .ok =>
    ({ st1 with
        sentMessages := st1.sentMessages + 1
        sentBytes := st1.sentBytes + messageSize }, header, 0)
  | .eagain => ({ st1 with sendEagain := st1.sendEagain + 1 }, header, 50)
  | .etimedout => ({ st1 with sendEagain := st1.sendEagain + 1 }, header, 50)
  | .err => ({ st1 with sendErrors := st1.sendErrors + 1 }, header, 100)

/-- `uint64_t` subtraction `a - b` for `a, b < 2^64`. -/
def sub64 (a b : Nat) : Nat :=
  (a + 2 ^ 64 - b) % 2 ^ 64

/-- The latency computation of `consumerThread` (`mq_benchmark.cpp` lines
252-257) and of the dispatch block in `produceFunc` (`gcd_benchmark.cpp`
lines 212-218): when the buffer can carry a header (`messageSize ≥ 16`)
and the received byte count `n` covers one, compute
`recvNs - sendNs` in `uint64_t` arithmetic and feed it to `record` only
when `recvNs ≥ sendNs`; otherwise nothing is recorded. -/
def consumerLatencyFed (messageSize n recvNs sendNs : Nat) : Option Nat :=
  if 16 ≤ messageSize ∧ 16 ≤ n ∧ sendNs ≤ recvNs then some (sub64 recvNs sendNs)
  else none

/-- The configuration fields `main` validates (`mq_benchmark.cpp` lines
296-311).  `int`/`long` fields are `Int` (they can be negative after
parsing), `size_t` fields are `Nat`. -/
structure MainConfig where
  messageSize : Nat
  producers : Int
  consumers : Int
  durationSeconds : Int
  maxMessages : Int
deriving DecidableEq, Repr

/-- How transport setup goes: `mq_open` fails, `mq_getattr` fails, or both
succeed. -/
inductive SetupResult where
  | openFail
  | getattrFail
  | opened
deriving DecidableEq, Repr

/-- Exit-status skeleton of `main` (`mq_benchmark.cpp` lines 296-359 and
437-472): validation returns 1, transport setup failure returns 2, and a
completed run returns 0.  `csvOpenOk` records whether `fopen(csvPath,"a")`
succeeds; it is deliberately unused: a failed CSV open is only reported
via `perror` and the run still returns 0. -/
def mainExit (cfg : MainConfig) (setup : SetupResult) (_csvOpenOk : Bool) : Nat :=
  if cfg.messageSize = 0 then 1
  else if cfg.producers ≤ 0 ∨ cfg.consumers ≤ 0 then 1
  else if cfg.durationSeconds ≤ 0 then 1
  else if cfg.maxMessages ≤ 0 then 1
  else
    match setup with
    | .openFail => 2
    | .getattrFail => 2
    | .opened => 0

theorem recordGcd_capacity (st : LatencyRecorder) (v r : Nat) :
    (recordGcd st v r).capacity = st.capacity := by
  unfold recordGcd
  dsimp only
  split <;> [rfl; (split <;> [(split <;> rfl); (split <;> [(split <;> rfl); rfl])])]

theorem recordMq_capacity (st : LatencyRecorder) (v r : Nat) :
    (recordMq st v r).capacity = st.capacity := by
  unfold recordMq
  dsimp only
  split
  · rfl
  · split
    · split
      · rfl
      · split <;> rfl
    · split
      · split <;> rfl
      · rfl

theorem recordGcd_seen (st : LatencyRecorder) (v r : Nat) :
    (recordGcd st v r).seen = st.seen + 1 := by
  unfold recordGcd
  dsimp only
  split <;> [rfl; (split <;> [(split <;> rfl); (split <;> [(split <;> rfl); rfl])])]

theorem recordMq_seen (st : LatencyRecorder) (v r : Nat) :
    (recordMq st v r).seen = st.seen + 1 := by
  unfold recordMq
  dsimp only
  split
  · rfl
  · split
    · split
      · rfl
      · split <;> rfl
    · split
      · split <;> rfl
      · rfl

theorem runRecGcd_capacity (cap : Nat) (vals draws : Nat → Nat) (n : Nat) :
    (runRecGcd cap vals draws n).capacity = cap := by
  induction n with
  | zero => rfl
  | succ n ih => rw [runRecGcd, recordGcd_capacity, ih]

theorem runRecMq_capacity (cap : Nat) (vals draws : Nat → Nat) (n : Nat) :
    (runRecMq cap vals draws n).capacity = cap := by
  induction n with
  | zero => rfl
  | succ n ih => rw [runRecMq, recordMq_capacity, ih]

theorem runRecGcd_seen (cap : Nat) (vals draws : Nat → Nat) (n : Nat) :
    (runRecGcd cap vals draws n).seen = n := by
  induction n with
  | zero => rfl
  | succ n ih => rw [runRecGcd, recordGcd_seen, ih]

theorem runRecMq_seen (cap : Nat) (vals draws : Nat → Nat) (n : Nat) :
    (runRecMq cap vals draws n).seen = n := by
  induction n with
  | zero => rfl
  | succ n ih => rw [runRecMq, recordMq_seen, ih]

theorem runRecGcd_length (cap : Nat) (vals draws : Nat → Nat) (n : Nat) :
    (runRecGcd cap vals draws n).samplesNs.length = min n cap := by
  induction n with
  | zero => simp [runRecGcd, LatencyRecorder.init]
  | succ n ih =>
    rw [runRecGcd]
    unfold recordGcd
    dsimp only
    rw [runRecGcd_capacity, runRecGcd_seen]
    rcases Nat.eq_zero_or_pos cap with hc | hc
    · subst hc
      simpa using ih
    · rw [if_neg (Nat.pos_iff_ne_zero.mp hc)]
      by_cases hn : n < cap
      · rw [if_pos hn]
        rw [if_pos (by rw [ih]; omega)]
        simp only [List.length_append, List.length_cons, List.length_nil, ih]
        omega
      · rw [if_neg hn]
        split
        · split
          · simp only [List.length_set, ih]
            omega
          · rw [ih]; omega
        · rw [ih]; omega

theorem runRecMq_length (cap : Nat) (vals draws : Nat → Nat) (n : Nat) :
    (runRecMq cap vals draws n).samplesNs.length = min n cap := by
  induction n with
  | zero => simp [runRecMq, LatencyRecorder.init]
  | succ n ih =>
    rw [runRecMq]
    unfold recordMq
    dsimp only
    rw [runRecMq_capacity, runRecMq_seen]
    rcases Nat.eq_zero_or_pos cap with hc | hc
    · subst hc
      simpa using ih
    · rw [if_neg (Nat.pos_iff_ne_zero.mp hc)]
      by_cases hn : n < cap
      · rw [if_pos hn]
        rw [if_pos (by rw [ih]; omega)]
        simp only [List.length_append, List.length_cons, List.length_nil, ih]
        omega
      · rw [if_neg hn]
        split
        · split
          · simp only [List.length_set, ih]
            omega
          · rw [ih]; omega
        · rw [ih]; omega

theorem recordMq_eq_recordGcd (st : LatencyRecorder) (v r : Nat)
    (h : st.samplesNs.length = min st.seen st.capacity) :
    recordMq st v r = recordGcd st v r := by
  unfold recordMq recordGcd
  dsimp only
  by_cases h0 : st.capacity = 0
  · rw [if_pos h0, if_pos h0]
  · rw [if_neg h0, if_neg h0]
    by_cases h1 : st.seen < st.capacity
    · rw [if_pos h1, if_pos h1, if_pos (by omega), if_pos (by omega)]
    · rw [if_neg h1, if_neg h1]

theorem runRec_eq (cap : Nat) (vals draws : Nat → Nat) (N : Nat) :
    runRecMq cap vals draws N = runRecGcd cap vals draws N := by
  induction N with
  | zero => rfl
  | succ n ih =>
    rw [runRecMq, runRecGcd, ih]
    exact recordMq_eq_recordGcd _ _ _
      (by rw [runRecGcd_length, runRecGcd_seen, runRecGcd_capacity])

theorem runRecGcd_samples_of_le (cap : Nat) (vals draws : Nat → Nat) (N : Nat)
    (h : N ≤ cap) :
    (runRecGcd cap vals draws N).samplesNs = (List.range N).map vals := by
  induction N with
  | zero => rfl
  | succ n ih =>
    rw [runRecGcd]
    unfold recordGcd
    dsimp only
    rw [runRecGcd_capacity, runRecGcd_seen, runRecGcd_length]
    rw [if_neg (by omega), if_pos (by omega), if_pos (by omega)]
    rw [ih (by omega), List.range_succ, List.map_append]
    rfl

theorem recordGcd_step_of_inv (st : LatencyRecorder) (v r : Nat)
    (hcap : st.capacity ≠ 0)
    (hinv : st.samplesNs.length = min st.seen st.capacity) :
    (st.seen < st.capacity →
      (recordGcd st v r).samplesNs = st.samplesNs ++ [v]) ∧
    (st.capacity ≤ st.seen → r < st.capacity →
      (recordGcd st v r).samplesNs = st.samplesNs.set r v) ∧
    (st.capacity ≤ st.seen → st.capacity ≤ r →
      (recordGcd st v r).samplesNs = st.samplesNs) := by
  unfold recordGcd
  dsimp only
  rw [if_neg hcap]
  refine ⟨fun h1 => ?_, fun h1 h2 => ?_, fun h1 h2 => ?_⟩
  · rw [if_pos h1, if_pos (by omega)]
  · rw [if_neg (by omega), if_pos h2, if_pos (by omega)]
  · rw [if_neg (by omega), if_neg (by omega)]

theorem recordMq_step_of_inv (st : LatencyRecorder) (v r : Nat)
    (hcap : st.capacity ≠ 0)
    (hinv : st.samplesNs.length = min st.seen st.capacity) :
    (st.seen < st.capacity →
      (recordMq st v r).samplesNs = st.samplesNs ++ [v]) ∧
    (st.capacity ≤ st.seen → r < st.capacity →
      (recordMq st v r).samplesNs = st.samplesNs.set r v) ∧
    (st.capacity ≤ st.seen → st.capacity ≤ r →
      (recordMq st v r).samplesNs = st.samplesNs) := by
  unfold recordMq
  dsimp only
  rw [if_neg hcap]
  refine ⟨fun h1 => ?_, fun h1 h2 => ?_, fun h1 h2 => ?_⟩
  · rw [if_pos h1, if_pos (by omega)]
  · rw [if_neg (by omega), if_pos h2, if_pos (by omega)]
  · rw [if_neg (by omega), if_neg (by omega)]

/-- C1: a `record(value)` call on a recorder with positive capacity, in
the state reached after `N` sequential calls, advances `seen` by one
(the pre-increment fetch of the index); if the obtained index is below
capacity it appends the value (the buffer has not yet reached capacity,
so the locked re-check passes); if the index is at least the capacity and
the draw `r ∈ [0, index]` lands below capacity it overwrites position
`r`, and otherwise it leaves the buffer unchanged.  Both the mqueue and
the gcd versions of `record` behave this way. -/
theorem C1_record_step (cap v r N : Nat) (vals draws : Nat → Nat)
    (hcap : 0 < cap) (_hr : r ≤ (runRecMq cap vals draws N).seen) :
    ((recordMq (runRecMq cap vals draws N) v r).seen
        = (runRecMq cap vals draws N).seen + 1) ∧
    ((runRecMq cap vals draws N).seen < cap →
      (recordMq (runRecMq cap vals draws N) v r).samplesNs
        = (runRecMq cap vals draws N).samplesNs ++ [v]) ∧
    (cap ≤ (runRecMq cap vals draws N).seen → r < cap →
      (recordMq (runRecMq cap vals draws N) v r).samplesNs
        = (runRecMq cap vals draws N).samplesNs.set r v) ∧
    (cap ≤ (runRecMq cap vals draws N).seen → cap ≤ r →
      (recordMq (runRecMq cap vals draws N) v r).samplesNs
        = (runRecMq cap vals draws N).samplesNs) ∧
    ((recordGcd (runRecGcd cap vals draws N) v r).seen
        = (runRecGcd cap vals draws N).seen + 1) ∧
    ((runRecGcd cap vals draws N).seen < cap →
      (recordGcd (runRecGcd cap vals draws N) v r).samplesNs
        = (runRecGcd cap vals draws N).samplesNs ++ [v]) ∧
    (cap ≤ (runRecGcd cap vals draws N).seen → r < cap →
      (recordGcd (runRecGcd cap vals draws N) v r).samplesNs
        = (runRecGcd cap vals draws N).samplesNs.set r v) ∧
    (cap ≤ (runRecGcd cap vals draws N).seen → cap ≤ r →
      (recordGcd (runRecGcd cap vals draws N) v r).samplesNs
        = (runRecGcd cap vals draws N).samplesNs) := by
  have hmq := recordMq_step_of_inv (runRecMq cap vals draws N) v r
    (by rw [runRecMq_capacity]; omega)
    (by rw [runRecMq_length, runRecMq_seen, runRecMq_capacity])
  have hgcd := recordGcd_step_of_inv (runRecGcd cap vals draws N) v r
    (by rw [runRecGcd_capacity]; omega)
    (by rw [runRecGcd_length, runRecGcd_seen, runRecGcd_capacity])
  rw [runRecMq_capacity] at hmq
  rw [runRecGcd_capacity] at hgcd
  exact ⟨recordMq_seen _ _ _, hmq.1, hmq.2.1, hmq.2.2,
    recordGcd_seen _ _ _, hgcd.1, hgcd.2.1, hgcd.2.2⟩

/-- Witness for C1 at capacity 2 after 3 calls (index 3 ≥ 2) with draw 1. -/
theorem C1_record_step_witness :
    (0 < 2 ∧ 1 ≤ (runRecMq 2 id (fun _ => 0) 3).seen) ∧
    (2 ≤ (runRecMq 2 id (fun _ => 0) 3).seen ∧
      (recordMq (runRecMq 2 id (fun _ => 0) 3) 7 1).samplesNs
        = (runRecMq 2 id (fun _ => 0) 3).samplesNs.set 1 7) :=
  ⟨⟨by decide, by decide⟩,
    ⟨by decide,
      (C1_record_step 2 7 1 3 id (fun _ => 0) (by decide) (by decide)).2.2.1
        (by decide) (by decide)⟩⟩

/-- C3: for any capacity, any values and any draws, after any number of
sequential `record` calls (in either program's version) the buffer length
never exceeds the capacity; once `seen ≥ capacity` the buffer length
equals the capacity; and after `N ≤ capacity` calls every observed value
is in the buffer. -/
theorem C3_reservoir_invariants (cap N : Nat) (vals draws : Nat → Nat) :
    ((runRecMq cap vals draws N).samplesNs.length ≤ cap ∧
      (cap ≤ (runRecMq cap vals draws N).seen →
        (runRecMq cap vals draws N).samplesNs.length = cap) ∧
      (N ≤ cap → ∀ i, i < N → vals i ∈ (runRecMq cap vals draws N).samplesNs)) ∧
    ((runRecGcd cap vals draws N).samplesNs.length ≤ cap ∧
      (cap ≤ (runRecGcd cap vals draws N).seen →
        (runRecGcd cap vals draws N).samplesNs.length = cap) ∧
      (N ≤ cap → ∀ i, i < N → vals i ∈ (runRecGcd cap vals draws N).samplesNs)) := by
  have hmem : N ≤ cap → ∀ i, i < N → vals i ∈ (runRecGcd cap vals draws N).samplesNs := by
    intro hN i hi
    rw [runRecGcd_samples_of_le cap vals draws N hN]
    exact List.mem_map.mpr ⟨i, List.mem_range.mpr hi, rfl⟩
  refine ⟨⟨?_, ?_, ?_⟩, ⟨?_, ?_, ?_⟩⟩
  · rw [runRecMq_length]; omega
  · rw [runRecMq_seen, runRecMq_length]; omega
  · rw [runRec_eq]; exact hmem
  · rw [runRecGcd_length]; omega
  · rw [runRecGcd_seen, runRecGcd_length]; omega
  · exact hmem

/-- Witness for C3 at capacity 2: after 3 calls the buffer is full; after
2 calls both observed values are present. -/
theorem C3_reservoir_invariants_witness :
    (2 ≤ (runRecMq 2 id (fun _ => 0) 3).seen ∧
      (runRecMq 2 id (fun _ => 0) 3).samplesNs.length = 2) ∧
    (2 ≤ 2 ∧ 1 < 2 ∧ id 1 ∈ (runRecGcd 2 id (fun _ => 0) 2).samplesNs) :=
  ⟨⟨by decide, (C3_reservoir_invariants 2 3 id (fun _ => 0)).1.2.1 (by decide)⟩,
    ⟨by decide, by decide,
      (C3_reservoir_invariants 2 2 id (fun _ => 0)).2.2.2 (by decide) 1 (by decide)⟩⟩

/-- C10: run sequentially from the initial state with the same values and
the same draws, the mqueue and gcd versions of `record` produce identical
recorder states after every number of calls; and whenever a call starts
with `seen < capacity` the buffer is strictly below capacity, so the
mqueue version's extra branch (index below capacity but buffer already
full, overwrite a random position) is never taken. -/
theorem C10_mq_gcd_equivalent (cap N : Nat) (vals draws : Nat → Nat) :
    runRecMq cap vals draws N = runRecGcd cap vals draws N ∧
    ((runRecMq cap vals draws N).seen < cap →
      (runRecMq cap vals draws N).samplesNs.length < cap) :=
  ⟨runRec_eq cap vals draws N, by rw [runRecMq_seen, runRecMq_length]; omega⟩

/-- Witness for C10 at capacity 3 after 2 calls. -/
theorem C10_mq_gcd_equivalent_witness :
    ((runRecMq 3 id (fun _ => 0) 2).seen < 3 ∧
      (runRecMq 3 id (fun _ => 0) 2).samplesNs.length < 3) :=
  ⟨by decide, (C10_mq_gcd_equivalent 3 2 id (fun _ => 0)).2 (by decide)⟩

/-- C7 counterexample: with capacity 0 a `record` call is not a complete
no-op on the recorder state — `seen.fetch_add(1)` runs before the
`capacity == 0` early return, so the `seen` counter still advances (in
both versions). -/
theorem C7_counterexample :
    recordMq (LatencyRecorder.init 0) 5 0 ≠ LatencyRecorder.init 0 ∧
    (recordMq (LatencyRecorder.init 0) 5 0).seen = 1 ∧
    (recordGcd (LatencyRecorder.init 0) 5 0).seen = 1 := by
  decide

/-- C7 amended: with capacity 0, `record` leaves the buffer (and every
field except `seen`) unchanged and only increments `seen`; consequently
after any run with capacity 0 the buffer is empty and the percentile
result is the empty list. -/
theorem C7_cap_zero_noop (st : LatencyRecorder) (v r N : Nat)
    (vals draws : Nat → Nat) (h : st.capacity = 0) :
    recordMq st v r = { st with seen := st.seen + 1 } ∧
    recordGcd st v r = { st with seen := st.seen + 1 } ∧
    (runRecMq 0 vals draws N).samplesNs = [] ∧
    (runRecGcd 0 vals draws N).samplesNs = [] ∧
    computePercentiles (runRecMq 0 vals draws N).samplesNs = [] := by
  have hmq : (runRecMq 0 vals draws N).samplesNs = [] :=
    List.length_eq_zero.mp (by rw [runRecMq_length]; omega)
  have hgcd : (runRecGcd 0 vals draws N).samplesNs = [] :=
    List.length_eq_zero.mp (by rw [runRecGcd_length]; omega)
  refine ⟨?_, ?_, hmq, hgcd, ?_⟩
  · unfold recordMq
    dsimp only
    rw [if_pos h]
  · unfold recordGcd
    dsimp only
    rw [if_pos h]
  · rw [hmq]
    rfl

/-- Witness for C7's amended statement at a concrete capacity-0 state. -/
theorem C7_cap_zero_noop_witness :
    (LatencyRecorder.init 0).capacity = 0 ∧
    recordMq (LatencyRecorder.init 0) 5 0
      = { LatencyRecorder.init 0 with seen := 1 } ∧
    computePercentiles (runRecMq 0 id (fun _ => 0) 4).samplesNs = [] :=
  ⟨by decide,
    (C7_cap_zero_noop (LatencyRecorder.init 0) 5 0 4 id (fun _ => 0) rfl).1,
    (C7_cap_zero_noop (LatencyRecorder.init 0) 5 0 4 id (fun _ => 0) rfl).2.2.2.2⟩

/-- C9: the exit status is 1 exactly on invalid configurations (message
size 0, producers or consumers below 1, duration below 1, max-messages
below 1), 2 exactly when the configuration is valid but transport setup
(`mq_open` or `mq_getattr`) fails, and 0 exactly on completed runs; and a
failed CSV open never changes the exit status. -/
theorem C9_exit_codes (cfg : MainConfig) (setup : SetupResult) (csvOpenOk : Bool) :
    (mainExit cfg setup csvOpenOk = 1 ↔
      (cfg.messageSize = 0 ∨ cfg.producers < 1 ∨ cfg.consumers < 1 ∨
        cfg.durationSeconds < 1 ∨ cfg.maxMessages < 1)) ∧
    (mainExit cfg setup csvOpenOk = 2 ↔
      (¬(cfg.messageSize = 0 ∨ cfg.producers < 1 ∨ cfg.consumers < 1 ∨
          cfg.durationSeconds < 1 ∨ cfg.maxMessages < 1) ∧
        setup ≠ SetupResult.opened)) ∧
    (mainExit cfg setup csvOpenOk = 0 ↔
      (¬(cfg.messageSize = 0 ∨ cfg.producers < 1 ∨ cfg.consumers < 1 ∨
          cfg.durationSeconds < 1 ∨ cfg.maxMessages < 1) ∧
        setup = SetupResult.opened)) ∧
    mainExit cfg setup true = mainExit cfg setup false := by
  rcases setup <;>
    · unfold mainExit
      split_ifs <;> simp_all <;> omega

/-- C8: whenever the consumer (or the gcd completion block) receives a
message carrying a header, the value fed to `record` exists only when
`recvNs ≥ sendNs`, and then the `uint64_t` subtraction does not wrap: the
fed value equals the exact mathematical difference, which is
non-negative; when `recvNs < sendNs` nothing is fed. -/
theorem C8_latency_nonnegative (messageSize n recvNs sendNs : Nat)
    (hrecv : recvNs < 2 ^ 64) (hsend : sendNs < 2 ^ 64) :
    (∀ v, consumerLatencyFed messageSize n recvNs sendNs = some v →
      (v : Int) = (recvNs : Int) - (sendNs : Int) ∧ 0 ≤ (v : Int)) ∧
    (recvNs < sendNs → consumerLatencyFed messageSize n recvNs sendNs = none) := by
  unfold consumerLatencyFed
  constructor
  · intro v hv
    by_cases h : 16 ≤ messageSize ∧ 16 ≤ n ∧ sendNs ≤ recvNs
    · rw [if_pos h] at hv
      have hv' : v = sub64 recvNs sendNs := (Option.some_inj.mp hv).symm
      unfold sub64 at hv'
      constructor <;> omega
    · rw [if_neg h] at hv
      exact absurd hv (by simp)
  · intro hlt
    rw [if_neg (by omega)]

/-- Witness for C8: a message of 64 bytes received whole, sent at 40 ns
and received at 100 ns, feeds exactly 60 ns. -/
theorem C8_latency_nonnegative_witness :
    ((100 : Nat) < 2 ^ 64 ∧ (40 : Nat) < 2 ^ 64) ∧
    ((60 : Int) = (100 : Int) - (40 : Int) ∧ 0 ≤ (60 : Int)) :=
  ⟨⟨by norm_num, by norm_num⟩,
    (C8_latency_nonnegative 64 64 100 40 (by norm_num) (by norm_num)).1 60
      (by decide)⟩

/-- C4 counterexample: the producer loop does not retry the same message.
With message size 64 and a send that fails with `EAGAIN` at time 100, the
next iteration (at time 200, succeeding) sends a message whose header
differs from the failed one: the sequence counter was already advanced by
the failed iteration and the timestamp is refreshed, so the failed
message's sequence number is skipped — it is silently dropped.  (The
would-block classification and backoff themselves are as claimed; see the
amended theorem.) -/
theorem C4_counterexample :
    (producerIter 64 ((producerIter 64 ⟨0, 0, 0, 0, 0⟩ 100 SendResult.eagain).1)
        200 SendResult.ok).2.1
      ≠ (producerIter 64 ⟨0, 0, 0, 0, 0⟩ 100 SendResult.eagain).2.1 ∧
    (producerIter 64 ⟨0, 0, 0, 0, 0⟩ 100 SendResult.eagain).1.sendEagain = 1 := by
  decide

/-- C4 amended: on a failed send, a would-block (`EAGAIN`) or timeout
(`ETIMEDOUT`) failure increments the retry counter `sendEagain` and is
followed by a 50 µs backoff, and any other failure increments
`sendErrors` and is followed by a 100 µs backoff; neither counts the
message as sent.  But the failed message is not retried: each iteration
writes a fresh header, so the message attempted by the failed iteration
carries sequence number `seq`, and the next iteration — whatever its
outcome — sends a new message with sequence number `seq + 1` and the new
timestamp; the failed message's sequence number is never sent. -/
theorem C4_failed_send_classification (messageSize now now2 : Nat)
    (st : ProducerState) (res : SendResult) (hsize : 16 ≤ messageSize) :
    ((res = SendResult.eagain ∨ res = SendResult.etimedout) →
      (producerIter messageSize st now res).1.sendEagain = st.sendEagain + 1 ∧
      (producerIter messageSize st now res).2.2 = 50 ∧
      (producerIter messageSize st now res).1.sentMessages = st.sentMessages) ∧
    (res = SendResult.err →
      (producerIter messageSize st now res).1.sendErrors = st.sendErrors + 1 ∧
      (producerIter messageSize st now res).2.2 = 100 ∧
      (producerIter messageSize st now res).1.sentMessages = st.sentMessages) ∧
    (producerIter messageSize st now res).2.1
      = some { sequence := st.seq, sendTimeNs := now } ∧
    (∀ res2 : SendResult,
      (producerIter messageSize (producerIter messageSize st now res).1 now2 res2).2.1
        = some { sequence := st.seq + 1, sendTimeNs := now2 }) := by
  refine ⟨fun h => ?_, fun h => ?_, ?_, fun res2 => ?_⟩
  · rcases h with rfl | rfl <;> simp [producerIter, hsize]
  · subst h
    simp [producerIter, hsize]
  · rcases res <;> simp [producerIter, hsize]
  · rcases res <;> rcases res2 <;> simp [producerIter, hsize]

/-- Witness for C4's amended statement: a timeout failure at sequence 0. -/
theorem C4_failed_send_classification_witness :
    (16 ≤ 64 ∧ (SendResult.etimedout = SendResult.eagain ∨
        SendResult.etimedout = SendResult.etimedout)) ∧
    ((producerIter 64 ⟨0, 0, 0, 0, 0⟩ 100 SendResult.etimedout).1.sendEagain = 0 + 1 ∧
      (producerIter 64 ⟨0, 0, 0, 0, 0⟩ 100 SendResult.etimedout).2.2 = 50 ∧
      (producerIter 64 ⟨0, 0, 0, 0, 0⟩ 100 SendResult.etimedout).1.sentMessages = 0) :=
  ⟨⟨by decide, Or.inr rfl⟩,
    (C4_failed_send_classification 64 100 200 ⟨0, 0, 0, 0, 0⟩ SendResult.etimedout
        (by decide)).1 (Or.inr rfl)⟩

theorem sorted_getD_le (s : List Nat) (hs : List.Sorted (· ≤ ·) s) (i j : Nat)
    (hij : i ≤ j) (hj : j < s.length) : s.getD i 0 ≤ s.getD j 0 := by
  rcases Nat.eq_or_lt_of_le hij with rfl | hlt
  · exact le_refl _
  · rw [List.getD_eq_getElem _ _ (lt_trans hlt hj), List.getD_eq_getElem _ _ hj]
    exact hs.rel_get_of_lt hlt

theorem sortAsc_sorted (l : List Nat) : List.Sorted (· ≤ ·) (sortAsc l) :=
  List.sorted_insertionSort _ l

theorem sortAsc_perm (l : List Nat) : (sortAsc l).Perm l :=
  List.perm_insertionSort _ l

theorem sortAsc_length (l : List Nat) : (sortAsc l).length = l.length :=
  (sortAsc_perm l).length_eq

theorem atQuantile_eq_specQuantile (sorted : List Nat) (q : ℚ)
    (hne : sorted ≠ []) (h0 : 0 ≤ q) (h1 : q ≤ 1) :
    atQuantile sorted q = specQuantile sorted q := by
  unfold atQuantile specQuantile
  rw [if_neg (by simpa using hne)]
  dsimp only
  have hn1 : 1 ≤ sorted.length := List.length_pos.mpr hne
  have hcast : ((sorted.length - 1 : Nat) : ℚ) = (sorted.length : ℚ) - 1 := by
    push_cast [Nat.cast_sub hn1]
    ring
  have hsub : (0 : ℚ) ≤ (sorted.length : ℚ) - 1 := by
    rw [← hcast]
    positivity
  have hpos0 : 0 ≤ q * ((sorted.length : ℚ) - 1) := mul_nonneg h0 hsub
  have hposle : q * ((sorted.length : ℚ) - 1) ≤ (sorted.length : ℚ) - 1 := by
    nlinarith
  by_cases hfrac : (⌊q * ((sorted.length : ℚ) - 1)⌋₊ : ℚ) = q * ((sorted.length : ℚ) - 1)
  · have hceil : ⌈q * ((sorted.length : ℚ) - 1)⌉₊ = ⌊q * ((sorted.length : ℚ) - 1)⌋₊ := by
      rw [← hfrac, Nat.ceil_natCast, Nat.floor_natCast]
    rw [hceil]
    have hz : q * ((sorted.length : ℚ) - 1) - (⌊q * ((sorted.length : ℚ) - 1)⌋₊ : ℚ) = 0 := by
      rw [hfrac]
      ring
    rw [hz]
    ring
  · have hlt : (⌊q * ((sorted.length : ℚ) - 1)⌋₊ : ℚ) < q * ((sorted.length : ℚ) - 1) :=
      lt_of_le_of_ne (Nat.floor_le hpos0) hfrac
    have hceil : ⌈q * ((sorted.length : ℚ) - 1)⌉₊ = ⌊q * ((sorted.length : ℚ) - 1)⌋₊ + 1 :=
      le_antisymm (Nat.ceil_le_floor_add_one _)
        (Nat.succ_le_of_lt (Nat.lt_ceil.mpr hlt))
    have hposlt : q * ((sorted.length : ℚ) - 1) < (sorted.length : ℚ) - 1 := by
      rcases lt_or_eq_of_le hposle with h | h
      · exact h
      · exact absurd (by rw [h, ← hcast, Nat.floor_natCast, hcast]) hfrac
    have hle : ⌊q * ((sorted.length : ℚ) - 1)⌋₊ + 1 ≤ sorted.length - 1 := by
      rw [← hceil]
      exact Nat.ceil_le.mpr (by rw [hcast]; exact le_of_lt hposlt)
    rw [hceil, min_eq_left hle]

/-- C5: on a non-empty snapshot, `computePercentiles` sorts ascending and
returns, for each quantile in `{0.5, 0.90, 0.95, 0.99, 0.999}` in that
order, exactly the spec's linear interpolation between the order
statistics at `⌊p⌋` and `⌈p⌉` (`p = q·(n−1)`), weighted by the fractional
part of `p` and divided by 1000; the sorted snapshot is an ascending
permutation of the input; and the empty snapshot yields the empty list,
not zeros. -/
theorem C5_computePercentiles_formula (dataNs : List Nat) (hne : dataNs ≠ []) :
    computePercentiles dataNs =
      [((0.5 : ℚ), specQuantile (sortAsc dataNs) 0.5),
        (0.90, specQuantile (sortAsc dataNs) 0.90),
        (0.95, specQuantile (sortAsc dataNs) 0.95),
        (0.99, specQuantile (sortAsc dataNs) 0.99),
        (0.999, specQuantile (sortAsc dataNs) 0.999)] ∧
    List.Sorted (· ≤ ·) (sortAsc dataNs) ∧
    (sortAsc dataNs).Perm dataNs ∧
    computePercentiles [] = [] := by
  have hs : sortAsc dataNs ≠ [] := by
    intro h
    exact hne (List.length_eq_zero.mp (by rw [← sortAsc_length, h, List.length_nil]))
  refine ⟨?_, sortAsc_sorted dataNs, sortAsc_perm dataNs, rfl⟩
  unfold computePercentiles
  rw [if_neg (by simpa using hne)]
  dsimp only
  rw [List.map_cons, List.map_cons, List.map_cons, List.map_cons, List.map_cons,
    List.map_nil]
  rw [atQuantile_eq_specQuantile (sortAsc dataNs) 0.5 hs (by norm_num) (by norm_num),
    atQuantile_eq_specQuantile (sortAsc dataNs) 0.90 hs (by norm_num) (by norm_num),
    atQuantile_eq_specQuantile (sortAsc dataNs) 0.95 hs (by norm_num) (by norm_num),
    atQuantile_eq_specQuantile (sortAsc dataNs) 0.99 hs (by norm_num) (by norm_num),
    atQuantile_eq_specQuantile (sortAsc dataNs) 0.999 hs (by norm_num) (by norm_num)]

/-- Witness for C5 on the snapshot `[2000, 1000]`. -/
theorem C5_computePercentiles_formula_witness :
    ([2000, 1000] ≠ ([] : List Nat)) ∧
    computePercentiles [2000, 1000] =
      [((0.5 : ℚ), specQuantile (sortAsc [2000, 1000]) 0.5),
        (0.90, specQuantile (sortAsc [2000, 1000]) 0.90),
        (0.95, specQuantile (sortAsc [2000, 1000]) 0.95),
        (0.99, specQuantile (sortAsc [2000, 1000]) 0.99),
        (0.999, specQuantile (sortAsc [2000, 1000]) 0.999)] :=
  ⟨by decide, (C5_computePercentiles_formula [2000, 1000] (by decide)).1⟩

theorem atQuantile_mono (s : List Nat) (hs : List.Sorted (· ≤ ·) s) (hne : s ≠ [])
    (q1 q2 : ℚ) (h0 : 0 ≤ q1) (h12 : q1 ≤ q2) (h2 : q2 ≤ 1) :
    atQuantile s q1 ≤ atQuantile s q2 := by
  unfold atQuantile
  rw [if_neg (by simpa using hne), if_neg (by simpa using hne)]
  dsimp only
  have hn1 : 1 ≤ s.length := List.length_pos.mpr hne
  have hcast : ((s.length - 1 : Nat) : ℚ) = (s.length : ℚ) - 1 := by
    push_cast [Nat.cast_sub hn1]
    ring
  have hsub : (0 : ℚ) ≤ (s.length : ℚ) - 1 := by
    rw [← hcast]
    positivity
  have hp10 : 0 ≤ q1 * ((s.length : ℚ) - 1) := mul_nonneg h0 hsub
  have hp20 : 0 ≤ q2 * ((s.length : ℚ) - 1) := mul_nonneg (le_trans h0 h12) hsub
  have hpp : q1 * ((s.length : ℚ) - 1) ≤ q2 * ((s.length : ℚ) - 1) :=
    mul_le_mul_of_nonneg_right h12 hsub
  have hp2le : q2 * ((s.length : ℚ) - 1) ≤ (s.length : ℚ) - 1 := by nlinarith
  have hf12 : ⌊q1 * ((s.length : ℚ) - 1)⌋₊ ≤ ⌊q2 * ((s.length : ℚ) - 1)⌋₊ :=
    Nat.floor_mono hpp
  have hfl2 : ⌊q2 * ((s.length : ℚ) - 1)⌋₊ ≤ s.length - 1 := by
    have h := Nat.floor_mono (le_trans hp2le (le_of_eq hcast.symm))
    rwa [Nat.floor_natCast] at h
  have hfl1 : ⌊q1 * ((s.length : ℚ) - 1)⌋₊ ≤ s.length - 1 := le_trans hf12 hfl2
  have hfr10 : (⌊q1 * ((s.length : ℚ) - 1)⌋₊ : ℚ) ≤ q1 * ((s.length : ℚ) - 1) :=
    Nat.floor_le hp10
  have hfr11 : q1 * ((s.length : ℚ) - 1) - (⌊q1 * ((s.length : ℚ) - 1)⌋₊ : ℚ) ≤ 1 := by
    have h := Nat.lt_floor_add_one (q1 * ((s.length : ℚ) - 1))
    push_cast at h
    linarith
  have hfr20 : (⌊q2 * ((s.length : ℚ) - 1)⌋₊ : ℚ) ≤ q2 * ((s.length : ℚ) - 1) :=
    Nat.floor_le hp20
  have hfr21 : q2 * ((s.length : ℚ) - 1) - (⌊q2 * ((s.length : ℚ) - 1)⌋₊ : ℚ) ≤ 1 := by
    have h := Nat.lt_floor_add_one (q2 * ((s.length : ℚ) - 1))
    push_cast at h
    linarith
  have hv1 : (s.getD ⌊q1 * ((s.length : ℚ) - 1)⌋₊ 0 : ℚ)
      ≤ (s.getD (min (⌊q1 * ((s.length : ℚ) - 1)⌋₊ + 1) (s.length - 1)) 0 : ℚ) := by
    exact_mod_cast sorted_getD_le s hs _ _ (le_min (Nat.le_succ _) hfl1)
      (lt_of_le_of_lt (min_le_right _ _) (by omega))
  have hv2 : (s.getD ⌊q2 * ((s.length : ℚ) - 1)⌋₊ 0 : ℚ)
      ≤ (s.getD (min (⌊q2 * ((s.length : ℚ) - 1)⌋₊ + 1) (s.length - 1)) 0 : ℚ) := by
    exact_mod_cast sorted_getD_le s hs _ _ (le_min (Nat.le_succ _) hfl2)
      (lt_of_le_of_lt (min_le_right _ _) (by omega))
  rcases Nat.eq_or_lt_of_le hf12 with heq | hlt
  · rw [heq]
    have hff : q1 * ((s.length : ℚ) - 1) - (⌊q2 * ((s.length : ℚ) - 1)⌋₊ : ℚ)
        ≤ q2 * ((s.length : ℚ) - 1) - (⌊q2 * ((s.length : ℚ) - 1)⌋₊ : ℚ) := by linarith
    rw [div_le_div_iff₀ (by norm_num) (by norm_num)]
    nlinarith [mul_nonneg (sub_nonneg.mpr hff) (sub_nonneg.mpr hv2)]
  · have hmid : (s.getD (min (⌊q1 * ((s.length : ℚ) - 1)⌋₊ + 1) (s.length - 1)) 0 : ℚ)
        ≤ (s.getD ⌊q2 * ((s.length : ℚ) - 1)⌋₊ 0 : ℚ) := by
      exact_mod_cast sorted_getD_le s hs _ _
        (le_trans (min_le_left _ _) hlt) (by omega)
    rw [div_le_div_iff₀ (by norm_num) (by norm_num)]
    nlinarith [hmid,
      mul_nonneg (by linarith : (0:ℚ) ≤ 1 - (q1 * ((s.length : ℚ) - 1)
          - (⌊q1 * ((s.length : ℚ) - 1)⌋₊ : ℚ)))
        (sub_nonneg.mpr hv1),
      mul_nonneg (sub_nonneg.mpr hfr20) (sub_nonneg.mpr hv2)]

theorem atQuantile_zero (s : List Nat) (hne : s ≠ []) :
    atQuantile s 0 = (s.getD 0 0 : ℚ) / 1000 := by
  unfold atQuantile
  rw [if_neg (by simpa using hne)]
  dsimp only
  norm_num

theorem atQuantile_one (s : List Nat) (hne : s ≠ []) :
    atQuantile s 1 = (s.getD (s.length - 1) 0 : ℚ) / 1000 := by
  unfold atQuantile
  rw [if_neg (by simpa using hne)]
  dsimp only
  have hn1 : 1 ≤ s.length := List.length_pos.mpr hne
  have hcast : ((s.length - 1 : Nat) : ℚ) = (s.length : ℚ) - 1 := by
    push_cast [Nat.cast_sub hn1]
    ring
  rw [one_mul, ← hcast, Nat.floor_natCast]
  rw [min_eq_right (by omega)]
  ring

/-- C6: on a non-empty input the five values returned by
`computePercentiles` are non-decreasing (p50 ≤ p90 ≤ p95 ≤ p99 ≤ p99.9),
and the interpolation formula evaluated at quantile 0 yields the sample
minimum and at quantile 1 the sample maximum (in microseconds). -/
theorem C6_percentiles_order (dataNs : List Nat) (hne : dataNs ≠ []) :
    ((computePercentiles dataNs).map Prod.snd =
      [atQuantile (sortAsc dataNs) 0.5, atQuantile (sortAsc dataNs) 0.90,
        atQuantile (sortAsc dataNs) 0.95, atQuantile (sortAsc dataNs) 0.99,
        atQuantile (sortAsc dataNs) 0.999]) ∧
    (atQuantile (sortAsc dataNs) 0.5 ≤ atQuantile (sortAsc dataNs) 0.90 ∧
      atQuantile (sortAsc dataNs) 0.90 ≤ atQuantile (sortAsc dataNs) 0.95 ∧
      atQuantile (sortAsc dataNs) 0.95 ≤ atQuantile (sortAsc dataNs) 0.99 ∧
      atQuantile (sortAsc dataNs) 0.99 ≤ atQuantile (sortAsc dataNs) 0.999) ∧
    atQuantile (sortAsc dataNs) 0 = ((sortAsc dataNs).getD 0 0 : ℚ) / 1000 ∧
    atQuantile (sortAsc dataNs) 1
      = ((sortAsc dataNs).getD ((sortAsc dataNs).length - 1) 0 : ℚ) / 1000 ∧
    (sortAsc dataNs).getD 0 0 ∈ dataNs ∧
    (∀ x ∈ dataNs, (sortAsc dataNs).getD 0 0 ≤ x) ∧
    (sortAsc dataNs).getD ((sortAsc dataNs).length - 1) 0 ∈ dataNs ∧
    (∀ x ∈ dataNs, x ≤ (sortAsc dataNs).getD ((sortAsc dataNs).length - 1) 0) := by
  have hs : sortAsc dataNs ≠ [] := by
    intro h
    exact hne (List.length_eq_zero.mp (by rw [← sortAsc_length, h, List.length_nil]))
  have hlen : 0 < (sortAsc dataNs).length := List.length_pos.mpr hs
  have hsorted := sortAsc_sorted dataNs
  refine ⟨?_, ⟨?_, ?_, ?_, ?_⟩, atQuantile_zero _ hs, atQuantile_one _ hs, ?_, ?_, ?_, ?_⟩
  · unfold computePercentiles
    rw [if_neg (by simpa using hne)]
    rfl
  · exact atQuantile_mono _ hsorted hs 0.5 0.90 (by norm_num) (by norm_num) (by norm_num)
  · exact atQuantile_mono _ hsorted hs 0.90 0.95 (by norm_num) (by norm_num) (by norm_num)
  · exact atQuantile_mono _ hsorted hs 0.95 0.99 (by norm_num) (by norm_num) (by norm_num)
  · exact atQuantile_mono _ hsorted hs 0.99 0.999 (by norm_num) (by norm_num) (by norm_num)
  · rw [List.getD_eq_getElem _ _ hlen]
    exact (sortAsc_perm dataNs).mem_iff.mp (List.getElem_mem hlen)
  · intro x hx
    obtain ⟨j, hj, rfl⟩ := List.mem_iff_getElem.mp ((sortAsc_perm dataNs).mem_iff.mpr hx)
    have := sorted_getD_le (sortAsc dataNs) hsorted 0 j (Nat.zero_le j) hj
    rwa [List.getD_eq_getElem _ _ hj] at this
  · rw [List.getD_eq_getElem _ _ (by omega)]
    exact (sortAsc_perm dataNs).mem_iff.mp (List.getElem_mem (by omega))
  · intro x hx
    obtain ⟨j, hj, rfl⟩ := List.mem_iff_getElem.mp ((sortAsc_perm dataNs).mem_iff.mpr hx)
    have := sorted_getD_le (sortAsc dataNs) hsorted j ((sortAsc dataNs).length - 1)
      (by omega) (by omega)
    rwa [List.getD_eq_getElem _ _ hj] at this

/-- Witness for C6 on the snapshot `[3000, 1000, 2000]`. -/
theorem C6_percentiles_order_witness :
    ([3000, 1000, 2000] ≠ ([] : List Nat)) ∧
    atQuantile (sortAsc [3000, 1000, 2000]) 0
      = ((sortAsc [3000, 1000, 2000]).getD 0 0 : ℚ) / 1000 ∧
    atQuantile (sortAsc [3000, 1000, 2000]) 0.5
      ≤ atQuantile (sortAsc [3000, 1000, 2000]) 0.90 :=
  ⟨by decide, (C6_percentiles_order [3000, 1000, 2000] (by decide)).2.2.1,
    (C6_percentiles_order [3000, 1000, 2000] (by decide)).2.1.1⟩

theorem lastWriter_succ_of_writes (cap : Nat) (draws : Nat → Nat) (p n : Nat)
    (hw : writesAt cap draws n p) :
    lastWriter cap draws p (n + 1) = n := by
  unfold lastWriter
  simp only [Nat.add_sub_cancel]
  exact Nat.findGreatest_eq hw

theorem lastWriter_succ_of_not_writes (cap : Nat) (draws : Nat → Nat) (p n : Nat)
    (hw : ¬ writesAt cap draws n p) :
    lastWriter cap draws p (n + 1) = lastWriter cap draws p n := by
  unfold lastWriter
  simp only [Nat.add_sub_cancel]
  rcases n with _ | m
  · rfl
  · simp only [Nat.add_sub_cancel]
    exact Nat.findGreatest_of_not hw

theorem getD_set_self (l : List Nat) (i a : Nat) (h : i < l.length) :
    (l.set i a).getD i 0 = a := by
  have h2 : i < (l.set i a).length := by
    rw [List.length_set]
    exact h
  rw [List.getD_eq_getElem _ _ h2]
  exact List.getElem_set_self h2

theorem getD_set_ne (l : List Nat) (i j a : Nat) (h : i ≠ j) :
    (l.set i a).getD j 0 = l.getD j 0 := by
  by_cases hj : j < l.length
  · have hj2 : j < (l.set i a).length := by
      rw [List.length_set]
      exact hj
    rw [List.getD_eq_getElem _ _ hj2, List.getD_eq_getElem _ _ hj]
    exact List.getElem_set_ne h hj2
  · rw [List.getD_eq_default _ _ (by rw [List.length_set]; omega),
      List.getD_eq_default _ _ (by omega)]

theorem runRecGcd_getD (cap : Nat) (vals draws : Nat → Nat) (N p : Nat)
    (hp : p < min N cap) :
    (runRecGcd cap vals draws N).samplesNs.getD p 0
      = vals (lastWriter cap draws p N) := by
  induction N with
  | zero => omega
  | succ n ih =>
    have hcap : cap ≠ 0 := by omega
    have hstep := recordGcd_step_of_inv (runRecGcd cap vals draws n) (vals n) (draws n)
      (by rw [runRecGcd_capacity]; exact hcap)
      (by rw [runRecGcd_length, runRecGcd_seen, runRecGcd_capacity])
    rw [runRecGcd_capacity, runRecGcd_seen] at hstep
    rw [runRecGcd]
    by_cases hn : n < cap
    · rw [hstep.1 hn]
      rcases Nat.lt_or_ge p n with hpn | hpn
      · rw [List.getD_append _ _ _ _ (by rw [runRecGcd_length]; omega)]
        rw [ih (by omega)]
        rw [lastWriter_succ_of_not_writes cap draws p n
          (by unfold writesAt; omega)]
      · have hpe : p = n := by omega
        rw [hpe]
        rw [List.getD_append_right _ _ _ _ (by rw [runRecGcd_length]; omega)]
        rw [runRecGcd_length, lastWriter_succ_of_writes cap draws n n
          (Or.inl ⟨hn, rfl⟩)]
        have hz : n - min n cap = 0 := by omega
        rw [hz]
        rfl
    · have hlen : (runRecGcd cap vals draws n).samplesNs.length = min n cap :=
        runRecGcd_length cap vals draws n
      by_cases hr : draws n < cap
      · rw [hstep.2.1 (by omega) hr]
        by_cases hpr : p = draws n
        · rw [hpr, getD_set_self _ _ _ (by rw [hlen]; omega)]
          rw [lastWriter_succ_of_writes cap draws (draws n) n
            (Or.inr ⟨by omega, rfl⟩)]
        · rw [getD_set_ne _ _ _ _ (fun he => hpr he.symm)]
          rw [ih (by omega)]
          rw [lastWriter_succ_of_not_writes cap draws p n
            (by unfold writesAt; omega)]
      · rw [hstep.2.2 (by omega) (by omega)]
        rw [ih (by omega)]
        rw [lastWriter_succ_of_not_writes cap draws p n
          (by unfold writesAt; omega)]

theorem mem_runRecGcd_iff_survives (cap N : Nat) (draws : Nat → Nat) (i : Nat)
    (hcap : 0 < cap) :
    i ∈ (runRecGcd cap id draws N).samplesNs ↔ survives cap N draws i := by
  constructor
  · intro hmem
    obtain ⟨p, hp, hval⟩ := List.mem_iff_getElem.mp hmem
    have hplen : p < min N cap := by
      rw [← runRecGcd_length cap id draws N]
      exact hp
    have hlw : lastWriter cap draws p N = i := by
      have hg := runRecGcd_getD cap id draws N p hplen
      rw [List.getD_eq_getElem _ _ hp, hval] at hg
      exact hg.symm
    unfold lastWriter at hlw
    have hiff := Nat.findGreatest_eq_iff.mp hlw
    have hWp : writesAt cap draws p p := Or.inl ⟨by omega, rfl⟩
    have hpi : p ≤ i := by
      by_contra hcon
      exact hiff.2.2 (by omega) (by omega) hWp
    have hWi : writesAt cap draws i p := by
      rcases Nat.eq_zero_or_pos i with hz | hpos
      · have hpz : p = 0 := by omega
        rw [hz, ← hpz]
        exact hWp
      · exact hiff.2.1 (by omega)
    have hiN : i < N := by
      have h := hiff.1
      omega
    have hpos : (if i < cap then i else draws i) = p := by
      rcases hWi with ⟨h1, h2⟩ | ⟨h1, h2⟩
      · rw [if_pos h1]
        omega
      · rw [if_neg (by omega)]
        exact h2
    refine ⟨hiN, by omega, ?_⟩
    intro j hij hjN hcj heq
    rw [hpos] at heq
    exact hiff.2.2 hij (by omega) (Or.inr ⟨hcj, heq⟩)
  · rintro ⟨hiN, hplt, hmax⟩
    have hpN : (if i < cap then i else draws i) < N := by
      by_cases h : i < cap
      · rw [if_pos h]
        omega
      · rw [if_neg h] at hplt ⊢
        omega
    have hW : writesAt cap draws i (if i < cap then i else draws i) := by
      by_cases h : i < cap
      · exact Or.inl ⟨h, by rw [if_pos h]⟩
      · exact Or.inr ⟨by omega, by rw [if_neg h]⟩
    have hlw : lastWriter cap draws (if i < cap then i else draws i) N = i := by
      unfold lastWriter
      refine Nat.findGreatest_eq_iff.mpr ⟨by omega, fun _ => hW, ?_⟩
      intro j hij hjN hWj
      rcases hWj with ⟨hjc, hpj⟩ | ⟨hcj, hdj⟩
      · by_cases h : i < cap
        · rw [if_pos h] at hpj
          omega
        · rw [if_neg h] at hplt
          omega
      · exact hmax j hij (by omega) hcj hdj
    have hplen : (if i < cap then i else draws i)
        < (runRecGcd cap id draws N).samplesNs.length := by
      rw [runRecGcd_length]
      omega
    have hg := runRecGcd_getD cap id draws N (if i < cap then i else draws i)
      (by rw [← runRecGcd_length cap id draws N]; exact hplen)
    rw [hlw] at hg
    rw [List.getD_eq_getElem _ _ hplen] at hg
    have hmem := List.getElem_mem hplen
    rw [hg] at hmem
    exact hmem

theorem toDraws_coord (cap N : Nat) (d : DrawSpace cap N) (k : Fin (N - cap)) :
    toDraws cap N d (cap + k) = (d k : Nat) := by
  unfold toDraws
  rw [dif_pos ⟨Nat.le_add_right _ _, by have := k.isLt; omega⟩]
  have hfin : (⟨cap + (k : Nat) - cap, by have := k.isLt; omega⟩ : Fin (N - cap)) = k :=
    Fin.ext (show cap + (k : Nat) - cap = (k : Nat) by omega)
  rw [hfin]

theorem toDraws_eq (cap N : Nat) (d : DrawSpace cap N) (j : Nat)
    (h1 : cap ≤ j) (h2 : j < N) :
    toDraws cap N d j = (d ⟨j - cap, by omega⟩ : Nat) := by
  unfold toDraws
  rw [dif_pos ⟨h1, h2⟩]

theorem survives_toDraws_low (cap N i : Nat) (hcap : i < cap) (hiN : i < N)
    (d : DrawSpace cap N) :
    survives cap N (toDraws cap N d) i ↔ ∀ k : Fin (N - cap), (d k : Nat) ≠ i := by
  unfold survives
  rw [if_pos hcap]
  constructor
  · rintro ⟨-, -, h⟩ k
    have hk := k.isLt
    have hcoord := h (cap + k) (by omega) (by omega) (by omega)
    rwa [toDraws_coord] at hcoord
  · intro h
    refine ⟨hiN, hcap, ?_⟩
    intro j hij hjN hcj
    rw [toDraws_eq cap N d j hcj hjN]
    exact h ⟨j - cap, by omega⟩

theorem survives_toDraws_high (cap N i : Nat) (hcap : cap ≤ i) (hiN : i < N)
    (d : DrawSpace cap N) :
    survives cap N (toDraws cap N d) i ↔
      ((d ⟨i - cap, by omega⟩ : Nat) < cap ∧
        ∀ k : Fin (N - cap), (⟨i - cap, by omega⟩ : Fin (N - cap)) < k →
          (d k : Nat) ≠ (d ⟨i - cap, by omega⟩ : Nat)) := by
  unfold survives
  rw [if_neg (by omega)]
  rw [toDraws_eq cap N d i hcap hiN]
  constructor
  · rintro ⟨-, h1, h2⟩
    refine ⟨h1, ?_⟩
    intro k hk
    have hkb := k.isLt
    have hklt : i - cap < (k : Nat) := hk
    have hcoord := h2 (cap + k) (by omega) (by omega) (by omega)
    rwa [toDraws_coord] at hcoord
  · rintro ⟨h1, h2⟩
    refine ⟨hiN, h1, ?_⟩
    intro j hij hjN hcj
    rw [toDraws_eq cap N d j hcj hjN]
    exact h2 ⟨j - cap, by omega⟩ (by exact Fin.mk_lt_mk.mpr (by omega))

theorem card_subtype_pi {n : Nat} {b : Fin n → Nat}
    (p : ∀ k, Fin (b k) → Prop) [∀ k x, Decidable (p k x)] :
    Fintype.card {d : (∀ k, Fin (b k)) // ∀ k, p k (d k)}
      = ∏ k, Fintype.card {x : Fin (b k) // p k x} := by
  rw [Fintype.card_congr (Equiv.subtypePiEquivPi (p := p))]
  exact Fintype.card_pi

theorem card_subtype_fin_val_ne {n v : Nat} (hv : v < n) :
    Fintype.card {x : Fin n // (x : Nat) ≠ v} = n - 1 := by
  have h1 : Fintype.card {x : Fin n // ¬ x = (⟨v, hv⟩ : Fin n)} = n - 1 := by
    rw [Fintype.card_subtype_compl, Fintype.card_subtype_eq, Fintype.card_fin]
  rw [← h1]
  apply Fintype.card_congr
  apply Equiv.subtypeEquivRight
  intro x
  exact not_congr ⟨fun h => Fin.ext h, fun h => congrArg Fin.val h⟩

theorem card_subtype_fin_val_lt (n v : Nat) (h : v ≤ n) :
    Fintype.card {x : Fin n // (x : Nat) < v} = v := by
  have e : {x : Fin n // (x : Nat) < v} ≃ Fin v :=
    { toFun := fun x => ⟨(x.1 : Nat), x.2⟩
      invFun := fun y => ⟨⟨(y : Nat), by omega⟩, y.2⟩
      left_inv := fun x => Subtype.ext (Fin.ext rfl)
      right_inv := fun y => rfl }
  rw [Fintype.card_congr e, Fintype.card_fin]

theorem prod_aux_low (cap m : Nat) :
    (∏ k in Finset.range m, (cap + k)) * (cap + m)
      = cap * ∏ k in Finset.range m, (cap + k + 1) := by
  induction m with
  | zero => simp
  | succ m ih =>
    rw [Finset.prod_range_succ, Finset.prod_range_succ, ih]
    ring

theorem prod_aux_high (cap k0 m : Nat) (h : k0 < m) :
    (∏ k in Finset.range m,
        (if k = k0 then 1 else if k0 < k then cap + k else cap + k + 1)) * (cap + m)
      = ∏ k in Finset.range m, (cap + k + 1) := by
  induction m with
  | zero => omega
  | succ m ih =>
    rw [Finset.prod_range_succ, Finset.prod_range_succ]
    rcases Nat.lt_or_ge k0 m with hk | hk
    · rw [if_neg (by omega), if_pos (by omega), ih hk]
      ring
    · have hk0 : k0 = m := by omega
      subst hk0
      rw [if_pos rfl, Nat.mul_one]
      have hcong : (∏ k in Finset.range k0,
            (if k = k0 then 1 else if k0 < k then cap + k else cap + k + 1))
          = ∏ k in Finset.range k0, (cap + k + 1) :=
        Finset.prod_congr rfl (fun k hkr => by
          have hkk := Finset.mem_range.mp hkr
          rw [if_neg (by omega), if_neg (by omega)])
      rw [hcong]
      ring

theorem count_low (cap N i : Nat) (hc : 0 < cap) (hic : i < cap) (hiN : i < N) :
    Fintype.card {d : DrawSpace cap N //
        i ∈ (runRecGcd cap id (toDraws cap N d) N).samplesNs}
      = ∏ k : Fin (N - cap), (cap + (k : Nat)) := by
  rw [Fintype.card_congr (Equiv.subtypeEquivRight (fun d =>
    (mem_runRecGcd_iff_survives cap N (toDraws cap N d) i hc).trans
      (survives_toDraws_low cap N i hic hiN d)))]
  rw [card_subtype_pi (p := fun k (x : Fin (cap + (k : Nat) + 1)) => (x : Nat) ≠ i)]
  exact Finset.prod_congr rfl (fun k _ => by
    rw [card_subtype_fin_val_ne (by omega)]
    omega)

theorem card_subtype_fin_val_eq {n v : Nat} (hv : v < n) :
    Fintype.card {x : Fin n // (x : Nat) = v} = 1 := by
  rw [Fintype.card_congr (Equiv.subtypeEquivRight (q := fun x : Fin n => x = ⟨v, hv⟩)
    (fun x => ⟨fun h => Fin.ext h, fun h => congrArg Fin.val h⟩))]
  exact Fintype.card_subtype_eq _

theorem card_subtype_fiber_sum {n : Nat} {b : Fin n → Nat}
    (P : (∀ k, Fin (b k)) → Prop) [DecidablePred P] (k0 : Fin n) :
    Fintype.card {d : (∀ k, Fin (b k)) // P d}
      = ∑ c : Fin (b k0), Fintype.card {d : (∀ k, Fin (b k)) // P d ∧ d k0 = c} := by
  rw [← Fintype.card_congr
    (Equiv.sigmaFiberEquiv (fun x : {d : (∀ k, Fin (b k)) // P d} => x.1 k0))]
  rw [Fintype.card_sigma]
  exact Finset.sum_congr rfl (fun c _ =>
    Fintype.card_congr (Equiv.subtypeSubtypeEquivSubtypeInter P (fun d => d k0 = c)))

theorem count_high (cap N i : Nat) (hc : 0 < cap) (hci : cap ≤ i) (hiN : i < N) :
    Fintype.card {d : DrawSpace cap N //
        i ∈ (runRecGcd cap id (toDraws cap N d) N).samplesNs}
      = cap * ∏ k : Fin (N - cap),
          (if (k : Nat) = i - cap then 1
            else if i - cap < (k : Nat) then cap + (k : Nat)
            else cap + (k : Nat) + 1) := by
  have hk0lt : i - cap < N - cap := by omega
  have hmem : ∀ d : DrawSpace cap N,
      (i ∈ (runRecGcd cap id (toDraws cap N d) N).samplesNs) ↔
        ((d ⟨i - cap, hk0lt⟩ : Nat) < cap ∧
          ∀ k : Fin (N - cap), (⟨i - cap, hk0lt⟩ : Fin (N - cap)) < k →
            (d k : Nat) ≠ (d ⟨i - cap, hk0lt⟩ : Nat)) := fun d =>
    (mem_runRecGcd_iff_survives cap N (toDraws cap N d) i hc).trans
      (survives_toDraws_high cap N i hci hiN d)
  have hstep1 : Fintype.card {d : DrawSpace cap N //
        i ∈ (runRecGcd cap id (toDraws cap N d) N).samplesNs}
      = Fintype.card {d : DrawSpace cap N //
          (d ⟨i - cap, hk0lt⟩ : Nat) < cap ∧
            ∀ k : Fin (N - cap), (⟨i - cap, hk0lt⟩ : Fin (N - cap)) < k →
              (d k : Nat) ≠ (d ⟨i - cap, hk0lt⟩ : Nat)} :=
    Fintype.card_congr (Equiv.subtypeEquivRight hmem)
  have hstep2 := card_subtype_fiber_sum
    (b := fun k : Fin (N - cap) => cap + (k : Nat) + 1)
    (P := fun d : DrawSpace cap N =>
      (d ⟨i - cap, hk0lt⟩ : Nat) < cap ∧
        ∀ k : Fin (N - cap), (⟨i - cap, hk0lt⟩ : Fin (N - cap)) < k →
          (d k : Nat) ≠ (d ⟨i - cap, hk0lt⟩ : Nat))
    ⟨i - cap, hk0lt⟩
  have hfiber : ∀ c : Fin (cap + (i - cap) + 1),
      Fintype.card {d : DrawSpace cap N //
          ((d ⟨i - cap, hk0lt⟩ : Nat) < cap ∧
            ∀ k : Fin (N - cap), (⟨i - cap, hk0lt⟩ : Fin (N - cap)) < k →
              (d k : Nat) ≠ (d ⟨i - cap, hk0lt⟩ : Nat)) ∧
            d ⟨i - cap, hk0lt⟩ = c}
        = if (c : Nat) < cap then
            ∏ k : Fin (N - cap),
              (if (k : Nat) = i - cap then 1
                else if i - cap < (k : Nat) then cap + (k : Nat)
                else cap + (k : Nat) + 1)
          else 0 := by
    clear hmem hstep1 hstep2
    intro c
    by_cases hcc : (c : Nat) < cap
    · rw [if_pos hcc]
      have hiff : ∀ d : DrawSpace cap N,
          (((d ⟨i - cap, hk0lt⟩ : Nat) < cap ∧
              ∀ k : Fin (N - cap), (⟨i - cap, hk0lt⟩ : Fin (N - cap)) < k →
                (d k : Nat) ≠ (d ⟨i - cap, hk0lt⟩ : Nat)) ∧
            d ⟨i - cap, hk0lt⟩ = c) ↔
            ∀ k : Fin (N - cap),
              ((k = ⟨i - cap, hk0lt⟩ → (d k : Nat) = (c : Nat)) ∧
                ((⟨i - cap, hk0lt⟩ : Fin (N - cap)) < k → (d k : Nat) ≠ (c : Nat))) := by
        intro d
        constructor
        · rintro ⟨⟨h1, h2⟩, h3⟩ k
          refine ⟨fun hk => by rw [hk, h3], fun hk => ?_⟩
          rw [← h3]
          exact h2 k hk
        · intro hq
          have h3 : d ⟨i - cap, hk0lt⟩ = c :=
            Fin.ext ((hq ⟨i - cap, hk0lt⟩).1 rfl)
          refine ⟨⟨?_, ?_⟩, h3⟩
          · rw [h3]
            exact hcc
          · intro k hk
            rw [h3]
            exact (hq k).2 hk
      rw [Fintype.card_congr (Equiv.subtypeEquivRight hiff)]
      rw [card_subtype_pi (p := fun (k : Fin (N - cap)) (x : Fin (cap + (k : Nat) + 1)) =>
        (k = ⟨i - cap, hk0lt⟩ → (x : Nat) = (c : Nat)) ∧
          ((⟨i - cap, hk0lt⟩ : Fin (N - cap)) < k → (x : Nat) ≠ (c : Nat)))]
      apply Finset.prod_congr rfl
      intro k hku
      rcases lt_trichotomy k (⟨i - cap, hk0lt⟩ : Fin (N - cap)) with h | h | h
      · have hkv : (k : Nat) < i - cap := h
        rw [if_neg (by omega), if_neg (by omega)]
        rw [Fintype.card_congr (Equiv.subtypeUnivEquiv (fun x =>
          ⟨fun hk => absurd (congrArg Fin.val hk) (by omega),
            fun hk => absurd hk (by simp [Fin.lt_def]; omega)⟩))]
        exact Fintype.card_fin _
      · have hkv : (k : Nat) = i - cap := congrArg Fin.val h
        rw [if_pos hkv]
        have he : ∀ x : Fin (cap + (k : Nat) + 1),
            ((k = ⟨i - cap, hk0lt⟩ → (x : Nat) = (c : Nat)) ∧
              ((⟨i - cap, hk0lt⟩ : Fin (N - cap)) < k → (x : Nat) ≠ (c : Nat))) ↔
              (x : Nat) = (c : Nat) := by
          intro x
          constructor
          · intro hx
            exact hx.1 h
          · intro hx
            exact ⟨fun _ => hx, fun hk => absurd hk (by rw [h]; exact lt_irrefl _)⟩
        rw [Fintype.card_congr (Equiv.subtypeEquivRight he)]
        exact card_subtype_fin_val_eq (by omega)
      · have hkv : i - cap < (k : Nat) := h
        rw [if_neg (by omega), if_pos hkv]
        have he : ∀ x : Fin (cap + (k : Nat) + 1),
            ((k = ⟨i - cap, hk0lt⟩ → (x : Nat) = (c : Nat)) ∧
              ((⟨i - cap, hk0lt⟩ : Fin (N - cap)) < k → (x : Nat) ≠ (c : Nat))) ↔
              (x : Nat) ≠ (c : Nat) := by
          intro x
          constructor
          · intro hx
            exact hx.2 h
          · intro hx
            exact ⟨fun hk => absurd (congrArg Fin.val hk) (by omega), fun _ => hx⟩
        rw [Fintype.card_congr (Equiv.subtypeEquivRight he)]
        rw [card_subtype_fin_val_ne (by omega)]
        omega
    · rw [if_neg hcc]
      rw [Fintype.card_eq_zero_iff]
      exact ⟨fun x => hcc (by rw [← x.2.2]; exact x.2.1.1)⟩
  rw [hstep1, hstep2]
  rw [Finset.sum_congr rfl (fun c _ => hfiber c)]
  rw [Finset.sum_ite, Finset.sum_const, Finset.sum_const_zero, Nat.add_zero, smul_eq_mul]
  congr 1
  rw [← Fintype.card_subtype]
  exact card_subtype_fin_val_lt _ cap (Nat.le_succ_of_le (Nat.le_add_right cap (i - cap)))

/-- C2: the reservoir sampling law, stated by exact counting over the
finite space of all draw sequences (each call with index `j ≥ capacity`
draws uniformly from `[0, j]`, so under the uniform measure probability
is favorable count over total count).  Feeding `N` distinct values
(labelled by arrival index) sequentially into `record` with capacity
`cap > 0`, every observed value `i < N` is present in the final buffer in
exactly a `cap / max N cap = min(1, cap/N)` fraction of all draw
sequences.  The right-hand side does not depend on `i`: every value has
the same retention probability regardless of where in the stream it
arrived. -/
theorem C2_reservoir_uniform (cap N i : Nat) (hc : 0 < cap) (hiN : i < N) :
    Fintype.card {d : DrawSpace cap N //
        i ∈ (runRecGcd cap id (toDraws cap N d) N).samplesNs} * max N cap
      = cap * Fintype.card (DrawSpace cap N) := by
  have htotal : Fintype.card (DrawSpace cap N)
      = ∏ k in Finset.range (N - cap), (cap + k + 1) := by
    rw [Fintype.card_pi]
    rw [← Fin.prod_univ_eq_prod_range (fun j => cap + j + 1) (N - cap)]
    exact Finset.prod_congr rfl (fun k _ => Fintype.card_fin _)
  rcases le_or_lt N cap with hNc | hcN
  · have hall : ∀ d : DrawSpace cap N,
        i ∈ (runRecGcd cap id (toDraws cap N d) N).samplesNs := fun d => by
      rw [runRecGcd_samples_of_le cap id (toDraws cap N d) N hNc]
      exact List.mem_map.mpr ⟨i, List.mem_range.mpr hiN, rfl⟩
    rw [Fintype.card_congr (Equiv.subtypeUnivEquiv hall)]
    rw [Nat.max_eq_right hNc]
    exact Nat.mul_comm _ _
  · have hNsplit : cap + (N - cap) = N := by omega
    rcases Nat.lt_or_ge i cap with hic | hci
    · rw [count_low cap N i hc hic hiN, htotal, Nat.max_eq_left (by omega)]
      have hconv : (∏ k : Fin (N - cap), (cap + (k : Nat)))
          = ∏ k in Finset.range (N - cap), (cap + k) :=
        Fin.prod_univ_eq_prod_range (fun j => cap + j) (N - cap)
      rw [hconv]
      have harith := prod_aux_low cap (N - cap)
      rw [hNsplit] at harith
      exact harith
    · rw [count_high cap N i hc hci hiN, htotal, Nat.max_eq_left (by omega)]
      have hconv : (∏ k : Fin (N - cap),
            (if (k : Nat) = i - cap then 1
              else if i - cap < (k : Nat) then cap + (k : Nat)
              else cap + (k : Nat) + 1))
          = ∏ k in Finset.range (N - cap),
              (if k = i - cap then 1 else if i - cap < k then cap + k
                else cap + k + 1) :=
        Fin.prod_univ_eq_prod_range
          (fun j => if j = i - cap then 1 else if i - cap < j then cap + j
            else cap + j + 1) (N - cap)
      rw [hconv]
      have harith := prod_aux_high cap (i - cap) (N - cap) (by omega)
      rw [hNsplit] at harith
      rw [Nat.mul_assoc, harith]

/-- Witness for C2 at capacity 2, three observations, first value: it is
retained in 2 of the 3 equally likely draw sequences. -/
theorem C2_reservoir_uniform_witness :
    (0 < 2 ∧ 0 < 3) ∧
    Fintype.card {d : DrawSpace 2 3 //
        0 ∈ (runRecGcd 2 id (toDraws 2 3 d) 3).samplesNs} * max 3 2
      = 2 * Fintype.card (DrawSpace 2 3) :=
  ⟨⟨by decide, by decide⟩, C2_reservoir_uniform 2 3 0 (by decide) (by decide)⟩
